import Mathlib

/-!
Shallow embedding of `src/bin/07_chokudai_search_with_time.rs`:
the 30x30 maze game (`MazeState`) and the time-bounded multi-depth
chokudai search driver (`chokudai_search_action_with_time_threshold`).

Modelling conventions:
* `usize` / `i32` / `i64` are modelled as `Nat` / `Int`; the
  `usize -> i32` and `i32 -> usize` casts in the source are modelled
  bit-faithfully by `toI32` and `toUsize`.
* The wall-clock loop `loop { sweep all levels; if elapsed >= threshold
  break }` always completes at least one full sweep before the first
  time check; it is modelled by the number `n >= 1` of completed sweeps.
* Rust's `BinaryHeap` pops a maximal element by `evaluated_score`
  (`Ord` on `MazeState` compares only that field); the pop order among
  tied elements is unspecified by Rust and modelled here by a fixed
  deterministic choice (the first maximal element of the backing list).
* Panics of the source are modelled explicitly: the `unwrap` of a
  missing first-action tag in result extraction becomes
  `SearchResult.panicked`, the `debug_assert!(false); Action::MAX`
  fall-through becomes `SearchResult.sentinel`, and the array indexing
  inside `advance` has an `Option`-valued checked variant
  `advanceChecked` that returns `none` exactly when the source would
  index out of bounds.
-/

namespace Chokudai

def H : Nat := 30
def W : Nat := 30
def END_TURN : Int := 100

abbrev Action := Nat
abbrev ScoreType := Int

/-- The Rust cast `n as i32` applied to a `usize` value `n`. -/
def toI32 (n : Nat) : Int :=
  let m : Nat := n % 4294967296
  if m < 2147483648 then (m : Int) else (m : Int) - 4294967296

/-- The Rust cast `z as usize` applied to an `i32` value `z`. -/
def toUsize (z : Int) : Nat :=
  (z % 18446744073709551616).toNat

structure Coord where
  x : Nat
  y : Nat

structure MazeState where
  points : Nat → Nat → Int
  turn : Int
  character : Coord
  game_score : Int
  evaluated_score : ScoreType
  first_action : Option Action

/-- `MazeState::dx`. -/
def dxArr : List Int := [1, -1, 0, 0]

/-- `MazeState::dy`. -/
def dyArr : List Int := [0, 0, 1, -1]

def dxA (a : Action) : Int := dxArr.getD a 0

def dyA (a : Action) : Int := dyArr.getD a 0

/-- `MazeState::is_done`. -/
def MazeState.is_done (s : MazeState) : Bool := s.turn == END_TURN

/-- The x coordinate `(self.character.x as i32 + Self::dx[action]) as usize`
computed inside `MazeState::advance`. -/
def destX (s : MazeState) (a : Action) : Nat :=
  toUsize (toI32 s.character.x + dxA a)

/-- The y coordinate `(self.character.y as i32 + Self::dy[action]) as usize`
computed inside `MazeState::advance`. -/
def destY (s : MazeState) (a : Action) : Nat :=
  toUsize (toI32 s.character.y + dyA a)

/-- `MazeState::advance` (the value of the receiver after the call; the
engine always calls it on a fresh clone).  Grid reads are total here; the
checked variant `advanceChecked` models the indexing panics. -/
def MazeState.advance (s : MazeState) (a : Action) : MazeState :=
  let nx := destX s a
  let ny := destY s a
  if 0 < s.points ny nx then
    { s with character := ⟨nx, ny⟩,
             points := fun y x => if y = ny ∧ x = nx then 0 else s.points y x,
             game_score := s.game_score + s.points ny nx,
             turn := s.turn + 1 }
  else
    { s with character := ⟨nx, ny⟩, turn := s.turn + 1 }

/-- `MazeState::evaluate_score`. -/
def MazeState.evaluate_score (s : MazeState) : MazeState :=
  { s with evaluated_score := s.game_score }

/-- `MazeState::legal_actions`. -/
def MazeState.legal_actions (s : MazeState) : List Action :=
  (List.range 4).filter fun a =>
    let ty := toI32 s.character.y + dyA a
    let tx := toI32 s.character.x + dxA a
    decide (0 ≤ ty ∧ ty < (H : Int) ∧ 0 ≤ tx ∧ tx < (W : Int))

/-- Checked reading of `MazeState::advance`: `none` exactly when the
source would panic (a direction-array index `action >= 4`, or a grid
index `points[ny][nx]` out of bounds). -/
def advanceChecked (s : MazeState) (a : Action) : Option MazeState :=
  match dxArr.get? a, dyArr.get? a with
  | some dxa, some dya =>
    let nx := toUsize (toI32 s.character.x + dxa)
    let ny := toUsize (toI32 s.character.y + dya)
    if ny < H ∧ nx < W then some (s.advance a) else none
  | _, _ => none

/-- `advance` folded over an action sequence. -/
def advanceSeq (s : MazeState) (as : List Action) : MazeState :=
  as.foldl MazeState.advance s

/-- One child produced by the driver's expansion at level `t`:
`clone; advance(action); evaluate_score(); if t == 0 { first_action = Some(action) }`. -/
def mkChild (t : Nat) (p : MazeState) (a : Action) : MazeState :=
  let ns := (p.advance a).evaluate_score
  if t = 0 then { ns with first_action := some a } else ns

/-- All children the driver pushes into queue `t+1` when it expands `p`
at level `t` (one per legal action, in `legal_actions` order). -/
def expandChildren (t : Nat) (p : MazeState) : List MazeState :=
  p.legal_actions.map (mkChild t p)

/-- Checked variant of `mkChild` built on `advanceChecked`. -/
def mkChildChecked (t : Nat) (p : MazeState) (a : Action) : Option MazeState :=
  (advanceChecked p a).map fun s1 =>
    let ns := s1.evaluate_score
    if t = 0 then { ns with first_action := some a } else ns

/-- `Option`-valued map used by `expandChildrenChecked`. -/
def mapOpt (f : α → Option β) : List α → Option (List β)
  | [] => some []
  | a :: l =>
    match f a, mapOpt f l with
    | some b, some bs => some (b :: bs)
    | _, _ => none

/-- Checked variant of `expandChildren`: `none` if any `advance` call of
the expansion would panic on an out-of-bounds grid index. -/
def expandChildrenChecked (t : Nat) (p : MazeState) : Option (List MazeState) :=
  mapOpt (mkChildChecked t p) p.legal_actions

/-- `BinaryHeap::pop` (with `peek` as its first component): removes a
maximal element by `evaluated_score`; among tied elements the choice is
a fixed deterministic one (Rust leaves it unspecified). -/
def popMax : List MazeState → Option (MazeState × List MazeState)
  | [] => none
  | s :: rest =>
    match popMax rest with
    | none => some (s, [])
    | some (m, r) =>
      if s.evaluated_score < m.evaluated_score then some (m, s :: r)
      else some (s, rest)

/-- `BinaryHeap::peek`. -/
def peekMax (q : List MazeState) : Option MazeState :=
  (popMax q).map Prod.fst

/-- The inner `for _ in 0..beam_width` loop at level `t`: up to `w`
expansion steps, stopping early when queue `t` is empty or its best node
is terminal; children accumulate into queue `t+1` (`qn`). -/
def expandLevel : Nat → Nat → List MazeState → List MazeState →
    List MazeState × List MazeState
  | 0, _, q, qn => (q, qn)
  | wp + 1, t, q, qn =>
    match popMax q with
    | none => (q, qn)
    | some (best, rest) =>
      if best.is_done then (q, qn)
      else expandLevel wp t rest (qn ++ expandChildren t best)

/-- The `for t in 0..beam_depth` loop of one sweep: `q` is the queue at
level `t`, `rest` the queues at levels `t+1, ...`; each processed level
passes its updated next queue onward. -/
def sweepAux (w : Nat) : Nat → List MazeState → List (List MazeState) →
    List (List MazeState)
  | _, q, [] => [q]
  | t, q, qn :: rest =>
    let p := expandLevel w t q qn
    p.1 :: sweepAux w (t + 1) p.2 rest

/-- One full sweep across all levels. -/
def sweep (w : Nat) : List (List MazeState) → List (List MazeState)
  | [] => []
  | q :: rest => sweepAux w 0 q rest

/-- `n` completed sweeps (the source's timed loop always completes at
least one sweep before its first deadline check, so `n >= 1` in every
run of the source). -/
def runSweeps (w : Nat) : Nat → List (List MazeState) → List (List MazeState)
  | 0, b => b
  | n + 1, b => runSweeps w n (sweep w b)

/-- `beam_depth + 1` queues; queue 0 seeded with a clone of the root. -/
def startBeam (s : MazeState) (d : Nat) : List (List MazeState) :=
  [s] :: List.replicate d []

/-- Result of the driver.  `ok a` is a normal return; `panicked` models
the `state.first_action.unwrap()` panic on a `None` tag; `sentinel`
models falling through every queue to `debug_assert!(false); Action::MAX`
(in a release build: the sentinel value `usize::MAX` is returned). -/
inductive SearchResult where
  | ok (a : Action)
  | panicked
  | sentinel
deriving DecidableEq

/-- The result-extraction loop `for t in (0..=beam_depth).rev()`:
the queues are scanned deepest-first, and the first non-empty queue's
best node decides the result. -/
def scanDeepest : List (List MazeState) → SearchResult
  | [] => .sentinel
  | q :: rest =>
    match scanDeepest rest with
    | .ok a => .ok a
    | .panicked => .panicked
    | .sentinel =>
      match peekMax q with
      | some s =>
        match s.first_action with
        | some a => .ok a
        | none => .panicked
      | none => .sentinel

/-- `chokudai_search_action_with_time_threshold`, with the wall-clock
budget replaced by the number `n` of completed sweeps (`n >= 1` in every
run of the source, see `runSweeps`). -/
def chokudai_search_action_with_time_threshold
    (s : MazeState) (w d n : Nat) : SearchResult :=
  scanDeepest (runSweeps w n (startBeam s d))

/-- The per-level, per-node preservation condition of a search invariant
`P`: expanding a non-terminal node of level `t` only produces children
satisfying `P` at level `t + 1`. -/
def StepOK (P : Nat → MazeState → Prop) : Prop :=
  ∀ t s a, P t s → s.is_done = false → a ∈ s.legal_actions →
    P (t + 1) (mkChild t s a)

/-- The per-run invariant: `P i` holds for every node of queue `i`. -/
def BeamInv (P : Nat → MazeState → Prop) (b : List (List MazeState)) : Prop :=
  ∀ i qi, b.get? i = some qi → ∀ s ∈ qi, P i s

/-- The agent's coordinate lies inside the grid. -/
def InB (s : MazeState) : Prop := s.character.x < W ∧ s.character.y < H

/-- The invariant used for queue non-emptiness: every node of a queue of
positive index has an in-bounds agent coordinate. -/
def PInB : Nat → MazeState → Prop := fun t s => 1 ≤ t → InB s

/-- The invariant for result legality: queue 0 holds only the root, and
every node of a deeper queue carries a first-action tag drawn from the
root's legal-action set. -/
def PTag (root : MazeState) : Nat → MazeState → Prop := fun t x =>
  (t = 0 → x = root) ∧
    (1 ≤ t → ∃ a, a ∈ root.legal_actions ∧ x.first_action = some a)

/-! ### Concrete states for witnesses -/

/-- A root in the upper-left corner of an all-zero grid. -/
def s0 : MazeState :=
  { points := fun _ _ => 0, turn := 0, character := ⟨0, 0⟩,
    game_score := 0, evaluated_score := 0, first_action := none }

/-- A non-terminal state whose agent is outside the grid: its
legal-action set is empty (a stuck state). -/
def stuckS : MazeState :=
  { points := fun _ _ => 0, turn := 0, character := ⟨31, 31⟩,
    game_score := 0, evaluated_score := 0, first_action := none }

/-- `ReachedVia root t a x`: the node `x` sits `t` engine expansion
steps below `root`, on a branch whose depth-0 child was produced by
root-level action `a`; every intermediate node was non-terminal and
every step used one of its legal actions, exactly as the driver expands. -/
inductive ReachedVia (root : MazeState) : Nat → Action → MazeState → Prop
  | base (a : Action) (h1 : root.is_done = false)
      (h2 : a ∈ root.legal_actions) :
      ReachedVia root 1 a (mkChild 0 root a)
  | step (t : Nat) (a b : Action) (p : MazeState) (h : ReachedVia root t a p)
      (h1 : p.is_done = false) (h2 : b ∈ p.legal_actions) :
      ReachedVia root (t + 1) a (mkChild t p b)

/-- A root one turn before the terminal turn. -/
def s1 : MazeState :=
  { points := fun _ _ => 0, turn := 99, character := ⟨0, 0⟩,
    game_score := 0, evaluated_score := 0, first_action := none }

/-- The total value remaining on the grid. -/
def gridSum (s : MazeState) : Int :=
  ∑ y ∈ Finset.range H, ∑ x ∈ Finset.range W, s.points y x

/-! ### Basic lemmas about the state model -/

theorem advance_turn (s : MazeState) (a : Action) :
    (s.advance a).turn = s.turn + 1 := by
  unfold MazeState.advance
  dsimp only
  split <;> rfl

theorem advance_first_action (s : MazeState) (a : Action) :
    (s.advance a).first_action = s.first_action := by
  unfold MazeState.advance
  dsimp only
  split <;> rfl

theorem advance_character (s : MazeState) (a : Action) :
    (s.advance a).character = ⟨destX s a, destY s a⟩ := by
  unfold MazeState.advance
  dsimp only
  split <;> rfl

theorem advance_evaluated (s : MazeState) (a : Action) :
    (s.advance a).evaluated_score = s.evaluated_score := by
  unfold MazeState.advance
  dsimp only
  split <;> rfl

theorem mkChild_turn (t : Nat) (p : MazeState) (a : Action) :
    (mkChild t p a).turn = p.turn + 1 := by
  unfold mkChild MazeState.evaluate_score
  split <;> simp [advance_turn]

theorem mkChild_character (t : Nat) (p : MazeState) (a : Action) :
    (mkChild t p a).character = ⟨destX p a, destY p a⟩ := by
  unfold mkChild MazeState.evaluate_score
  split <;> simp [advance_character]

theorem mkChild_game_score (t : Nat) (p : MazeState) (a : Action) :
    (mkChild t p a).game_score = (p.advance a).game_score := by
  unfold mkChild MazeState.evaluate_score
  split <;> rfl

theorem mkChild_points (t : Nat) (p : MazeState) (a : Action) :
    (mkChild t p a).points = (p.advance a).points := by
  unfold mkChild MazeState.evaluate_score
  split <;> rfl

theorem mkChild_tag_zero (p : MazeState) (a : Action) :
    (mkChild 0 p a).first_action = some a := rfl

theorem mkChild_tag_pos {t : Nat} (ht : t ≠ 0) (p : MazeState) (a : Action) :
    (mkChild t p a).first_action = p.first_action := by
  unfold mkChild MazeState.evaluate_score
  rw [if_neg ht]
  simp [advance_first_action]

theorem toI32_small {n : Nat} (h : n < 2147483648) : toI32 n = (n : Int) := by
  unfold toI32
  have h1 : n % 4294967296 = n := Nat.mod_eq_of_lt (by omega)
  simp only [h1]
  rw [if_pos h]

theorem toUsize_small {z : Int} (h0 : 0 ≤ z) (h1 : z < 18446744073709551616) :
    toUsize z = z.toNat := by
  unfold toUsize
  rw [Int.emod_eq_of_lt h0 h1]

theorem mem_legal_iff {s : MazeState} {a : Action} :
    a ∈ s.legal_actions ↔
      a < 4 ∧ 0 ≤ toI32 s.character.y + dyA a ∧
        toI32 s.character.y + dyA a < (H : Int) ∧
        0 ≤ toI32 s.character.x + dxA a ∧
        toI32 s.character.x + dxA a < (W : Int) := by
  unfold MazeState.legal_actions
  simp [List.mem_filter, List.mem_range, and_assoc]

theorem dest_int_of_legal {s : MazeState} {a : Action}
    (h : a ∈ s.legal_actions) :
    ((destX s a : Nat) : Int) = toI32 s.character.x + dxA a ∧
      ((destY s a : Nat) : Int) = toI32 s.character.y + dyA a ∧
      destX s a < W ∧ destY s a < H := by
  obtain ⟨-, hy0, hy1, hx0, hx1⟩ := mem_legal_iff.mp h
  have hW : (W : Int) = 30 := rfl
  have hH : (H : Int) = 30 := rfl
  have ex : destX s a = (toI32 s.character.x + dxA a).toNat := by
    unfold destX
    exact toUsize_small hx0 (by omega)
  have ey : destY s a = (toI32 s.character.y + dyA a).toNat := by
    unfold destY
    exact toUsize_small hy0 (by omega)
  refine ⟨?_, ?_, ?_, ?_⟩
  · rw [ex, Int.toNat_of_nonneg hx0]
  · rw [ey, Int.toNat_of_nonneg hy0]
  · have : ((destX s a : Nat) : Int) < (W : Int) := by
      rw [ex, Int.toNat_of_nonneg hx0]; omega
    exact_mod_cast this
  · have : ((destY s a : Nat) : Int) < (H : Int) := by
      rw [ey, Int.toNat_of_nonneg hy0]; omega
    exact_mod_cast this

/-! ### Lemmas about the priority-queue model -/

/-- Full specification of `popMax` on a non-empty queue: it returns a
maximal element together with the remaining elements. -/
theorem popMax_spec (q : List MazeState) :
    (q = [] ∧ popMax q = none) ∨
      ∃ m r, popMax q = some (m, r) ∧ m ∈ q ∧ (∀ x ∈ r, x ∈ q) ∧
        q.length = r.length + 1 ∧
        (∀ x ∈ q, x.evaluated_score ≤ m.evaluated_score) := by
  induction q with
  | nil => exact Or.inl ⟨rfl, rfl⟩
  | cons s rest ih =>
    right
    rcases ih with ⟨hnil, hnone⟩ | ⟨m, r, hsome, hmem, hsub, hlen, hmax⟩
    · subst hnil
      refine ⟨s, [], by simp [popMax], List.mem_cons_self s [], by simp, by simp, ?_⟩
      intro x hx
      rcases List.mem_cons.mp hx with h1 | h1
      · subst h1; exact le_refl _
      · simp at h1
    · by_cases hc : s.evaluated_score < m.evaluated_score
      · refine ⟨m, s :: r, ?_, List.mem_cons_of_mem s hmem, ?_, ?_, ?_⟩
        · simp [popMax, hsome, hc]
        · intro x hx
          rcases List.mem_cons.mp hx with h1 | h1
          · exact List.mem_cons.mpr (Or.inl h1)
          · exact List.mem_cons_of_mem s (hsub x h1)
        · simp [hlen]
        · intro x hx
          rcases List.mem_cons.mp hx with h1 | h1
          · subst h1; exact le_of_lt hc
          · exact hmax x h1
      · refine ⟨s, rest, ?_, List.mem_cons_self s rest, ?_, by simp, ?_⟩
        · simp [popMax, hsome, hc]
        · intro x hx; exact List.mem_cons_of_mem s hx
        · intro x hx
          rcases List.mem_cons.mp hx with h1 | h1
          · subst h1; exact le_refl _
          · exact le_trans (hmax x h1) (not_lt.mp hc)

theorem popMax_eq_none {q : List MazeState} : popMax q = none ↔ q = [] := by
  rcases popMax_spec q with ⟨h1, h2⟩ | ⟨m, r, h1, -, -, -, -⟩
  · subst h1; simp [popMax]
  · rw [h1]
    simp only [iff_iff_implies_and_implies]
    constructor
    · intro h; cases h
    · intro h
      subst h
      simp [popMax] at h1

theorem popMax_mem {q : List MazeState} {m : MazeState} {r : List MazeState}
    (h : popMax q = some (m, r)) : m ∈ q := by
  rcases popMax_spec q with ⟨-, h2⟩ | ⟨m1, r1, h1, hmem, -, -, -⟩
  · rw [h2] at h; cases h
  · rw [h1] at h
    simp only [Option.some.injEq, Prod.mk.injEq] at h
    rw [← h.1]
    exact hmem

theorem popMax_rest_mem {q : List MazeState} {m x : MazeState}
    {r : List MazeState} (h : popMax q = some (m, r)) (hx : x ∈ r) : x ∈ q := by
  rcases popMax_spec q with ⟨-, h2⟩ | ⟨m1, r1, h1, -, hsub, -, -⟩
  · rw [h2] at h; cases h
  · rw [h1] at h
    simp only [Option.some.injEq, Prod.mk.injEq] at h
    rw [← h.2] at hx
    exact hsub x hx

theorem popMax_length {q : List MazeState} {m : MazeState}
    {r : List MazeState} (h : popMax q = some (m, r)) :
    q.length = r.length + 1 := by
  rcases popMax_spec q with ⟨-, h2⟩ | ⟨m1, r1, h1, -, -, hlen, -⟩
  · rw [h2] at h; cases h
  · rw [h1] at h
    simp only [Option.some.injEq, Prod.mk.injEq] at h
    rw [← h.2]
    exact hlen

theorem popMax_is_max {q : List MazeState} {m : MazeState}
    {r : List MazeState} (h : popMax q = some (m, r)) :
    ∀ x ∈ q, x.evaluated_score ≤ m.evaluated_score := by
  rcases popMax_spec q with ⟨-, h2⟩ | ⟨m1, r1, h1, -, -, -, hmax⟩
  · rw [h2] at h; cases h
  · rw [h1] at h
    simp only [Option.some.injEq, Prod.mk.injEq] at h
    rw [← h.1]
    exact hmax

theorem peekMax_eq_none {q : List MazeState} : peekMax q = none ↔ q = [] := by
  unfold peekMax
  rcases popMax_spec q with ⟨h1, h2⟩ | ⟨m, r, h1, -, -, -, -⟩
  · subst h1; simp [h2]
  · rw [h1]
    constructor
    · intro hx; simp at hx
    · intro hx
      subst hx
      simp [popMax] at h1

theorem peekMax_mem {q : List MazeState} {m : MazeState}
    (h : peekMax q = some m) : m ∈ q := by
  unfold peekMax at h
  rcases popMax_spec q with ⟨-, h2⟩ | ⟨m1, r1, h1, hmem, -, -, -⟩
  · rw [h2] at h; simp at h
  · rw [h1] at h
    simp at h
    rw [← h]
    exact hmem

/-! ### Lemmas about the driver loops -/

theorem expandLevel_nil (w t : Nat) (qn : List MazeState) :
    expandLevel w t [] qn = ([], qn) := by
  cases w <;> rfl

theorem expandLevel_done {q qn : List MazeState} {m : MazeState}
    {r : List MazeState} (w t : Nat) (h : popMax q = some (m, r))
    (hd : m.is_done = true) : expandLevel w t q qn = (q, qn) := by
  cases w with
  | zero => rfl
  | succ wp =>
    simp only [expandLevel, h]
    rw [if_pos hd]

theorem expandLevel_length (w t : Nat) (q qn : List MazeState) :
    q.length ≤ (expandLevel w t q qn).1.length + w := by
  induction w generalizing q qn with
  | zero => simp [expandLevel]
  | succ wp ih =>
    cases h : popMax q with
    | none =>
      simp only [expandLevel, h]
      exact Nat.le_add_right _ _
    | some p =>
      obtain ⟨m, r⟩ := p
      by_cases hd : m.is_done = true
      · rw [expandLevel_done (wp + 1) t h hd]
        exact Nat.le_add_right _ _
      · simp only [expandLevel, h, if_neg hd]
        have h1 := ih r (qn ++ expandChildren t m)
        have h2 := popMax_length h
        omega

theorem expandLevel_snd (w t : Nat) (q qn : List MazeState) :
    ∃ l, (expandLevel w t q qn).2 = qn ++ l := by
  induction w generalizing q qn with
  | zero => exact ⟨[], by simp [expandLevel]⟩
  | succ wp ih =>
    cases h : popMax q with
    | none => exact ⟨[], by simp [expandLevel, h]⟩
    | some p =>
      obtain ⟨m, r⟩ := p
      by_cases hd : m.is_done = true
      · rw [expandLevel_done (wp + 1) t h hd]
        exact ⟨[], by simp⟩
      · simp only [expandLevel, h, if_neg hd]
        obtain ⟨l, hl⟩ := ih r (qn ++ expandChildren t m)
        exact ⟨expandChildren t m ++ l, by rw [hl, List.append_assoc]⟩

theorem expandLevel_inv {P : Nat → MazeState → Prop} (hstep : StepOK P)
    (w t : Nat) (q qn : List MazeState) (hq : ∀ s ∈ q, P t s)
    (hqn : ∀ s ∈ qn, P (t + 1) s) :
    (∀ s ∈ (expandLevel w t q qn).1, P t s) ∧
      (∀ s ∈ (expandLevel w t q qn).2, P (t + 1) s) := by
  induction w generalizing q qn with
  | zero => exact ⟨hq, hqn⟩
  | succ wp ih =>
    cases h : popMax q with
    | none => simp only [expandLevel, h]; exact ⟨hq, hqn⟩
    | some p =>
      obtain ⟨m, r⟩ := p
      by_cases hd : m.is_done = true
      · rw [expandLevel_done (wp + 1) t h hd]; exact ⟨hq, hqn⟩
      · simp only [expandLevel, h, if_neg hd]
        apply ih
        · intro s hs
          exact hq s (popMax_rest_mem h hs)
        · intro s hs
          rcases List.mem_append.mp hs with h1 | h1
          · exact hqn s h1
          · simp only [expandChildren] at h1
            obtain ⟨a, ha, rfl⟩ := List.mem_map.mp h1
            exact hstep t m a (hq m (popMax_mem h)) (by simpa using hd) ha

theorem sweepAux_length (w : Nat) :
    ∀ (rest : List (List MazeState)) (t : Nat) (q : List MazeState),
      (sweepAux w t q rest).length = rest.length + 1 := by
  intro rest
  induction rest with
  | nil => intro t q; rfl
  | cons qn rest ih =>
    intro t q
    simp only [sweepAux, List.length_cons, ih]

theorem sweepAux_inv {P : Nat → MazeState → Prop} (hstep : StepOK P)
    (w : Nat) :
    ∀ (rest : List (List MazeState)) (t : Nat) (q : List MazeState),
      (∀ s ∈ q, P t s) →
      (∀ i qi, rest.get? i = some qi → ∀ s ∈ qi, P (t + 1 + i) s) →
      ∀ i qi, (sweepAux w t q rest).get? i = some qi → ∀ s ∈ qi, P (t + i) s := by
  intro rest
  induction rest with
  | nil =>
    intro t q hq _ i qi hi
    cases i with
    | zero =>
      simp only [sweepAux, List.get?_cons_zero, Option.some.injEq] at hi
      subst hi
      simpa using hq
    | succ j =>
      simp [sweepAux] at hi
  | cons qn rest ih =>
    intro t q hq hrest i qi hi
    simp only [sweepAux] at hi
    obtain ⟨h1, h2⟩ := expandLevel_inv hstep w t q qn hq
      (fun s hs => hrest 0 qn rfl s hs)
    cases i with
    | zero =>
      simp only [List.get?_cons_zero, Option.some.injEq] at hi
      subst hi
      simpa using h1
    | succ j =>
      rw [List.get?_cons_succ] at hi
      have hr2 : ∀ i qi, rest.get? i = some qi → ∀ s ∈ qi, P (t + 1 + 1 + i) s := by
        intro i qi hri s hs
        have := hrest (i + 1) qi hri s hs
        rwa [show t + 1 + (i + 1) = t + 1 + 1 + i by omega] at this
      have := ih (t + 1) _ h2 hr2 j qi hi
      rwa [show t + 1 + j = t + (j + 1) by omega] at this

theorem sweep_inv {P : Nat → MazeState → Prop} (hstep : StepOK P)
    (w : Nat) (b : List (List MazeState)) (hb : BeamInv P b) :
    BeamInv P (sweep w b) := by
  cases b with
  | nil =>
    intro i qi h
    simp [sweep] at h
  | cons q rest =>
    intro i qi h s hs
    have h0 : ∀ s ∈ q, P 0 s := fun s hs => hb 0 q rfl s hs
    have hr : ∀ j qj, rest.get? j = some qj → ∀ s ∈ qj, P (0 + 1 + j) s := by
      intro j qj hj s hs
      have := hb (j + 1) qj hj s hs
      rwa [show 0 + 1 + j = j + 1 by omega]
    have := sweepAux_inv hstep w rest 0 q h0 hr i qi h s hs
    rwa [show 0 + i = i by omega] at this

theorem runSweeps_inv {P : Nat → MazeState → Prop} (hstep : StepOK P)
    (w : Nat) : ∀ (n : Nat) (b : List (List MazeState)),
      BeamInv P b → BeamInv P (runSweeps w n b) := by
  intro n
  induction n with
  | zero => intro b hb; exact hb
  | succ m ih => intro b hb; exact ih (sweep w b) (sweep_inv hstep w b hb)

theorem replicate_nil_get? :
    ∀ (d i : Nat) {q : List MazeState},
      (List.replicate d ([] : List MazeState)).get? i = some q → q = [] := by
  intro d
  induction d with
  | zero => intro i q h; simp [List.replicate] at h
  | succ dp ih =>
    intro i q h
    cases i with
    | zero =>
      simp only [List.replicate, List.get?_cons_zero, Option.some.injEq] at h
      exact h.symm
    | succ j => exact ih j h

theorem startBeam_inv {P : Nat → MazeState → Prop} (s : MazeState) (d : Nat)
    (h0 : P 0 s) : BeamInv P (startBeam s d) := by
  intro i qi hi x hx
  cases i with
  | zero =>
    simp only [startBeam, List.get?_cons_zero, Option.some.injEq] at hi
    subst hi
    rcases List.mem_cons.mp hx with h1 | h1
    · rw [h1]; exact h0
    · simp at h1
  | succ j =>
    have : qi = [] := replicate_nil_get? d j hi
    subst this
    simp at hx

/-! ### Lemmas about result extraction -/

theorem scanDeepest_sentinel_iff (l : List (List MazeState)) :
    scanDeepest l = .sentinel ↔ ∀ q ∈ l, q = [] := by
  induction l with
  | nil => simp [scanDeepest]
  | cons q rest ih =>
    cases hr : scanDeepest rest with
    | ok a =>
      simp only [scanDeepest, hr]
      constructor
      · intro h; cases h
      · intro h
        have hs : scanDeepest rest = .sentinel :=
          ih.mpr fun q1 hq1 => h q1 (List.mem_cons_of_mem q hq1)
        rw [hr] at hs
        cases hs
    | panicked =>
      simp only [scanDeepest, hr]
      constructor
      · intro h; cases h
      · intro h
        have hs : scanDeepest rest = .sentinel :=
          ih.mpr fun q1 hq1 => h q1 (List.mem_cons_of_mem q hq1)
        rw [hr] at hs
        cases hs
    | sentinel =>
      cases hp : peekMax q with
      | none =>
        have hq : q = [] := peekMax_eq_none.mp hp
        subst hq
        simp only [scanDeepest, hr, hp]
        constructor
        · intro _ q1 hq1
          rcases List.mem_cons.mp hq1 with h1 | h1
          · exact h1
          · exact ih.mp hr q1 h1
        · intro _; trivial
      | some s =>
        have hmem : s ∈ q := peekMax_mem hp
        cases hs : s.first_action with
        | some a =>
          simp only [scanDeepest, hr, hp, hs]
          constructor
          · intro h; cases h
          · intro h
            exfalso
            rw [h q (List.mem_cons_self q rest)] at hmem
            simp at hmem
        | none =>
          simp only [scanDeepest, hr, hp, hs]
          constructor
          · intro h; cases h
          · intro h
            exfalso
            rw [h q (List.mem_cons_self q rest)] at hmem
            simp at hmem

theorem scanDeepest_deepest :
    ∀ (l : List (List MazeState)) (t : Nat) (q : List MazeState)
      (m : MazeState),
      l.get? t = some q → peekMax q = some m →
      (∀ u qu, t < u → l.get? u = some qu → qu = []) →
      scanDeepest l = (match m.first_action with
        | some a => SearchResult.ok a
        | none => SearchResult.panicked) := by
  intro l
  induction l with
  | nil =>
    intro t q m h
    simp at h
  | cons q0 rest ih =>
    intro t q m hget hpeek hdeep
    cases t with
    | zero =>
      simp only [List.get?_cons_zero, Option.some.injEq] at hget
      subst hget
      have hrest : ∀ qu ∈ rest, qu = [] := by
        intro qu hqu
        obtain ⟨j, hj⟩ := List.mem_iff_get?.mp hqu
        exact hdeep (j + 1) qu (by omega) hj
      have hsent : scanDeepest rest = .sentinel :=
        (scanDeepest_sentinel_iff rest).mpr hrest
      cases hm : m.first_action with
      | some a => simp only [scanDeepest, hsent, hpeek, hm]
      | none => simp only [scanDeepest, hsent, hpeek, hm]
    | succ tp =>
      have hget2 : rest.get? tp = some q := hget
      have hdeep2 : ∀ u qu, tp < u → rest.get? u = some qu → qu = [] :=
        fun u qu hu h => hdeep (u + 1) qu (by omega) h
      have hr := ih tp q m hget2 hpeek hdeep2
      cases hm : m.first_action with
      | some a =>
        rw [hm] at hr
        simp only [scanDeepest, hr]
      | none =>
        rw [hm] at hr
        simp only [scanDeepest, hr]

theorem scanDeepest_ok_of_tagged :
    ∀ (l : List (List MazeState)) (A : List Action),
      (∀ q ∈ l, ∀ s ∈ q, ∃ a, a ∈ A ∧ s.first_action = some a) →
      (∃ q ∈ l, q ≠ []) →
      ∃ a, a ∈ A ∧ scanDeepest l = .ok a := by
  intro l A
  induction l with
  | nil =>
    intro _ h
    simp at h
  | cons q rest ih =>
    intro htag hne
    cases hr : scanDeepest rest with
    | ok a =>
      by_cases hre : ∃ q1 ∈ rest, q1 ≠ []
      · obtain ⟨b, hbA, hb⟩ :=
          ih (fun q1 h1 => htag q1 (List.mem_cons_of_mem q h1)) hre
        rw [hr] at hb
        cases hb
        exact ⟨a, hbA, by simp only [scanDeepest, hr]⟩
      · exfalso
        have hall : ∀ q1 ∈ rest, q1 = [] := by
          intro q1 h1
          by_contra hne1
          exact hre ⟨q1, h1, hne1⟩
        have hs := (scanDeepest_sentinel_iff rest).mpr hall
        rw [hr] at hs
        cases hs
    | panicked =>
      exfalso
      by_cases hre : ∃ q1 ∈ rest, q1 ≠ []
      · obtain ⟨b, -, hb⟩ :=
          ih (fun q1 h1 => htag q1 (List.mem_cons_of_mem q h1)) hre
        rw [hr] at hb
        cases hb
      · have hall : ∀ q1 ∈ rest, q1 = [] := by
          intro q1 h1
          by_contra hne1
          exact hre ⟨q1, h1, hne1⟩
        have hs := (scanDeepest_sentinel_iff rest).mpr hall
        rw [hr] at hs
        cases hs
    | sentinel =>
      have hallrest : ∀ q1 ∈ rest, q1 = [] :=
        (scanDeepest_sentinel_iff rest).mp hr
      have hq : q ≠ [] := by
        rcases hne with ⟨q1, hq1, hne1⟩
        rcases List.mem_cons.mp hq1 with h1 | h1
        · rw [h1] at hne1; exact hne1
        · exact absurd (hallrest q1 h1) hne1
      obtain ⟨s, hp⟩ : ∃ s, peekMax q = some s := by
        cases hp : peekMax q with
        | none => exact absurd (peekMax_eq_none.mp hp) hq
        | some s => exact ⟨s, rfl⟩
      obtain ⟨a, haA, htag1⟩ :=
        htag q (List.mem_cons_self q rest) s (peekMax_mem hp)
      exact ⟨a, haA, by simp only [scanDeepest, hr, hp, htag1]⟩

/-! ### In-bounds characters and queue non-emptiness -/

theorem mkChild_inB {p : MazeState} {a : Action} (t : Nat)
    (ha : a ∈ p.legal_actions) : InB (mkChild t p a) := by
  obtain ⟨-, -, hx, hy⟩ := dest_int_of_legal ha
  constructor
  · rw [mkChild_character]; exact hx
  · rw [mkChild_character]; exact hy

theorem legal_ne_nil_of_inB {s : MazeState} (hx : s.character.x < W)
    (hy : s.character.y < H) : s.legal_actions ≠ [] := by
  have hW : W = 30 := rfl
  have hH : H = 30 := rfl
  have hix : toI32 s.character.x = s.character.x := toI32_small (by omega)
  have hiy : toI32 s.character.y = s.character.y := toI32_small (by omega)
  have hWi : (W : Int) = 30 := rfl
  have hHi : (H : Int) = 30 := rfl
  by_cases hx1 : s.character.x + 1 < 30
  · have h0 : 0 ∈ s.legal_actions := by
      rw [mem_legal_iff]
      have d0x : dxA 0 = 1 := rfl
      have d0y : dyA 0 = 0 := rfl
      rw [d0x, d0y, hix, hiy, hWi, hHi]
      refine ⟨by norm_num, ?_, ?_, ?_, ?_⟩ <;> omega
    intro hnil
    rw [hnil] at h0
    simp at h0
  · have h1 : 1 ∈ s.legal_actions := by
      rw [mem_legal_iff]
      have d1x : dxA 1 = -1 := rfl
      have d1y : dyA 1 = 0 := rfl
      rw [d1x, d1y, hix, hiy, hWi, hHi]
      refine ⟨by norm_num, ?_, ?_, ?_, ?_⟩ <;> omega
    intro hnil
    rw [hnil] at h1
    simp at h1

theorem expandChildren_ne_nil {p : MazeState} (t : Nat) (hin : InB p) :
    expandChildren t p ≠ [] := by
  unfold expandChildren
  intro hcon
  exact legal_ne_nil_of_inB hin.1 hin.2 (List.map_eq_nil_iff.mp hcon)

theorem expandChildren_inB {p : MazeState} (t : Nat) :
    ∀ x ∈ expandChildren t p, InB x := by
  intro x hx
  simp only [expandChildren] at hx
  obtain ⟨a, ha, rfl⟩ := List.mem_map.mp hx
  exact mkChild_inB t ha

theorem expandLevel_snd_inB (w t : Nat) (q qn : List MazeState)
    (hqn : ∀ s ∈ qn, InB s) : ∀ s ∈ (expandLevel w t q qn).2, InB s := by
  induction w generalizing q qn with
  | zero => exact hqn
  | succ wp ih =>
    cases h : popMax q with
    | none => simp only [expandLevel, h]; exact hqn
    | some p =>
      obtain ⟨m, r⟩ := p
      by_cases hd : m.is_done = true
      · rw [expandLevel_done (wp + 1) t h hd]; exact hqn
      · simp only [expandLevel, h, if_neg hd]
        apply ih
        intro s hs
        rcases List.mem_append.mp hs with h1 | h1
        · exact hqn s h1
        · exact expandChildren_inB t s h1

theorem expandLevel_ne_nil {w t : Nat} {q qn : List MazeState}
    (hin : ∀ s ∈ q, InB s) (hq : q ≠ []) :
    (expandLevel w t q qn).1 ≠ [] ∨ (expandLevel w t q qn).2 ≠ [] := by
  induction w generalizing q qn with
  | zero => exact Or.inl hq
  | succ wp ih =>
    cases h : popMax q with
    | none => exact absurd (popMax_eq_none.mp h) hq
    | some p =>
      obtain ⟨m, r⟩ := p
      by_cases hd : m.is_done = true
      · rw [expandLevel_done (wp + 1) t h hd]
        exact Or.inl hq
      · simp only [expandLevel, h, if_neg hd]
        right
        obtain ⟨l, hl⟩ := expandLevel_snd wp t r (qn ++ expandChildren t m)
        rw [hl]
        have hch : expandChildren t m ≠ [] :=
          expandChildren_ne_nil t (hin m (popMax_mem h))
        intro hcon
        rw [List.append_assoc] at hcon
        rcases List.append_eq_nil.mp hcon with ⟨-, h2⟩
        rcases List.append_eq_nil.mp h2 with ⟨h3, -⟩
        exact hch h3

theorem sweepAux_keeps_ne (w : Nat) :
    ∀ (rest : List (List MazeState)) (t : Nat) (q : List MazeState),
      (∀ s ∈ q, InB s) → (∀ q1 ∈ rest, ∀ s ∈ q1, InB s) →
      (q ≠ [] ∨ ∃ q1 ∈ rest, q1 ≠ []) →
      ∃ q1 ∈ sweepAux w t q rest, q1 ≠ [] := by
  intro rest
  induction rest with
  | nil =>
    intro t q hq _ hne
    rcases hne with h | ⟨q1, h1, h2⟩
    · exact ⟨q, by simp [sweepAux], h⟩
    · simp at h1
  | cons qn rest ih =>
    intro t q hq hrest hne
    simp only [sweepAux]
    have hqnInB : ∀ s ∈ qn, InB s := hrest qn (List.mem_cons_self qn rest)
    have hrest2 : ∀ q1 ∈ rest, ∀ s ∈ q1, InB s :=
      fun q1 h1 => hrest q1 (List.mem_cons_of_mem qn h1)
    have hsndInB : ∀ s ∈ (expandLevel w t q qn).2, InB s :=
      expandLevel_snd_inB w t q qn hqnInB
    by_cases hqe : q = []
    · subst hqe
      have hE : expandLevel w t ([] : List MazeState) qn = ([], qn) :=
        expandLevel_nil w t qn
      rcases hne with h | ⟨q1, h1, h2⟩
      · exact absurd rfl h
      · rcases List.mem_cons.mp h1 with h3 | h3
        · obtain ⟨q2, hq2, hq2ne⟩ := ih (t + 1) (expandLevel w t [] qn).2
            hsndInB hrest2 (Or.inl (by rw [hE]; rw [← h3]; exact h2))
          exact ⟨q2, List.mem_cons_of_mem _ hq2, hq2ne⟩
        · obtain ⟨q2, hq2, hq2ne⟩ := ih (t + 1) (expandLevel w t [] qn).2
            hsndInB hrest2 (Or.inr ⟨q1, h3, h2⟩)
          exact ⟨q2, List.mem_cons_of_mem _ hq2, hq2ne⟩
    · rcases expandLevel_ne_nil hq hqe with h | h
      · exact ⟨(expandLevel w t q qn).1, List.mem_cons_self _ _, h⟩
      · obtain ⟨q2, hq2, hq2ne⟩ := ih (t + 1) (expandLevel w t q qn).2
          hsndInB hrest2 (Or.inl h)
        exact ⟨q2, List.mem_cons_of_mem _ hq2, hq2ne⟩

theorem sweep_length (w : Nat) (b : List (List MazeState)) :
    (sweep w b).length = b.length := by
  cases b with
  | nil => rfl
  | cons q rest => simp [sweep, sweepAux_length]

theorem runSweeps_length (w : Nat) :
    ∀ (n : Nat) (b : List (List MazeState)),
      (runSweeps w n b).length = b.length := by
  intro n
  induction n with
  | zero => intro b; rfl
  | succ m ih => intro b; rw [runSweeps, ih, sweep_length]

theorem stepOK_PInB : StepOK PInB := by
  intro t s a _ _ ha _
  exact mkChild_inB t ha

theorem sweep_keeps_tail_ne (w : Nat) (q0 q1 : List MazeState)
    (rest2 : List (List MazeState))
    (hinv : BeamInv PInB (q0 :: q1 :: rest2))
    (hne : ∃ q ∈ q1 :: rest2, q ≠ []) :
    ∃ q ∈ (sweep w (q0 :: q1 :: rest2)).tail, q ≠ [] := by
  have hsw : sweep w (q0 :: q1 :: rest2) =
      (expandLevel w 0 q0 q1).1 ::
        sweepAux w 1 (expandLevel w 0 q0 q1).2 rest2 := rfl
  rw [hsw]
  have hq1InB : ∀ s ∈ q1, InB s := fun s hs => hinv 1 q1 rfl s hs (le_refl 1)
  have hrest2InB : ∀ q2 ∈ rest2, ∀ s ∈ q2, InB s := by
    intro q2 h2 s hs
    obtain ⟨j, hj⟩ := List.mem_iff_get?.mp h2
    exact hinv (j + 2) q2 hj s hs (by omega)
  have hsndInB : ∀ s ∈ (expandLevel w 0 q0 q1).2, InB s :=
    expandLevel_snd_inB w 0 q0 q1 hq1InB
  apply sweepAux_keeps_ne w rest2 1 (expandLevel w 0 q0 q1).2 hsndInB hrest2InB
  rcases hne with ⟨q, hq, hqne⟩
  rcases List.mem_cons.mp hq with h1 | h1
  · left
    obtain ⟨l, hl⟩ := expandLevel_snd w 0 q0 q1
    rw [hl]
    intro hcon
    rcases List.append_eq_nil.mp hcon with ⟨h2, -⟩
    rw [← h1] at h2
    exact hqne h2
  · exact Or.inr ⟨q, h1, hqne⟩

theorem sweeps_iter_tail_ne (w : Nat) :
    ∀ (k : Nat) (b : List (List MazeState)), 2 ≤ b.length →
      BeamInv PInB b → (∃ q ∈ b.tail, q ≠ []) →
      ∃ q ∈ (runSweeps w k b).tail, q ≠ [] := by
  intro k
  induction k with
  | zero => intro b _ _ h; exact h
  | succ kp ih =>
    intro b hlen hinv hne
    obtain ⟨q0, q1, rest2, rfl⟩ : ∃ q0 q1 rest2, b = q0 :: q1 :: rest2 := by
      cases b with
      | nil => simp at hlen
      | cons q0 rest =>
        cases rest with
        | nil => simp at hlen
        | cons q1 rest2 => exact ⟨q0, q1, rest2, rfl⟩
    exact ih (sweep w (q0 :: q1 :: rest2))
      (by rw [sweep_length]; exact hlen)
      (sweep_inv stepOK_PInB w _ hinv)
      (sweep_keeps_tail_ne w q0 q1 rest2 hinv hne)

theorem first_sweep_tail_ne (wp dp : Nat) (root : MazeState)
    (hdone : root.is_done = false) (hleg : root.legal_actions ≠ []) :
    ∃ q ∈ (sweep (wp + 1) (startBeam root (dp + 1))).tail, q ≠ [] := by
  have hpop : popMax [root] = some (root, []) := rfl
  have hnd : ¬root.is_done = true := by simp [hdone]
  have hE : expandLevel (wp + 1) 0 [root] [] =
      ([], [] ++ expandChildren 0 root) := by
    simp only [expandLevel, hpop, if_neg hnd]
    exact expandLevel_nil wp 0 _
  have hE2 : (expandLevel (wp + 1) 0 [root] []).2 = expandChildren 0 root := by
    rw [hE]
    rfl
  have hsw : (sweep (wp + 1) (startBeam root (dp + 1))).tail =
      sweepAux (wp + 1) 1 (expandLevel (wp + 1) 0 [root] []).2
        (List.replicate dp []) := rfl
  rw [hsw]
  apply sweepAux_keeps_ne
  · intro x hx
    rw [hE2] at hx
    exact expandChildren_inB 0 x hx
  · intro q1 h1 x hx
    have : q1 = [] := List.eq_of_mem_replicate h1
    subst this
    simp at hx
  · left
    rw [hE2]
    intro hcon
    exact hleg (List.map_eq_nil_iff.mp hcon)

theorem stepOK_PTag (root : MazeState) : StepOK (PTag root) := by
  intro t s a hP hdone ha
  constructor
  · intro h
    exact absurd h (Nat.succ_ne_zero t)
  · intro _
    cases t with
    | zero =>
      have hs : s = root := hP.1 rfl
      subst hs
      exact ⟨a, ha, mkChild_tag_zero s a⟩
    | succ tp =>
      obtain ⟨b, hb, htag⟩ := hP.2 (by omega)
      refine ⟨b, hb, ?_⟩
      rw [mkChild_tag_pos (Nat.succ_ne_zero tp) s a]
      exact htag

/-- Claim C1: for a non-terminal root with at least one legal action and
`beamWidth >= 1`, `depthLimit >= 1`, the driver returns an action from the
root's legal-action set for every number `n >= 1` of completed sweeps (a
zero or tiny time budget gives exactly `n = 1`): it neither panics nor
falls through to the sentinel, and it terminates by construction. -/
theorem claim1_search_returns_legal_action
    (s : MazeState) (w d n : Nat)
    (hdone : s.is_done = false) (hleg : s.legal_actions ≠ [])
    (hw : 1 ≤ w) (hd : 1 ≤ d) (hn : 1 ≤ n) :
    ∃ a, a ∈ s.legal_actions ∧
      chokudai_search_action_with_time_threshold s w d n = .ok a := by
  obtain ⟨wp, rfl⟩ : ∃ wp, w = wp + 1 := ⟨w - 1, by omega⟩
  obtain ⟨dp, rfl⟩ : ∃ dp, d = dp + 1 := ⟨d - 1, by omega⟩
  obtain ⟨np, rfl⟩ : ∃ np, n = np + 1 := ⟨n - 1, by omega⟩
  have hB2 : runSweeps (wp + 1) (np + 1) (startBeam s (dp + 1)) =
      runSweeps (wp + 1) np (sweep (wp + 1) (startBeam s (dp + 1))) := rfl
  have htail : ∃ q ∈ (runSweeps (wp + 1) (np + 1) (startBeam s (dp + 1))).tail,
      q ≠ [] := by
    rw [hB2]
    apply sweeps_iter_tail_ne
    · rw [sweep_length]
      simp [startBeam]
    · exact sweep_inv stepOK_PInB _ _
        (startBeam_inv s (dp + 1) (fun h => absurd h (by omega)))
    · exact first_sweep_tail_ne wp dp s hdone hleg
  have hinv : BeamInv (PTag s) (runSweeps (wp + 1) (np + 1) (startBeam s (dp + 1))) :=
    runSweeps_inv (stepOK_PTag s) (wp + 1) (np + 1) _
      (startBeam_inv s (dp + 1) ⟨fun _ => rfl, fun h => absurd h (by omega)⟩)
  obtain ⟨f0, ftail, hf⟩ : ∃ f0 ftail,
      runSweeps (wp + 1) (np + 1) (startBeam s (dp + 1)) = f0 :: ftail := by
    have hlen := runSweeps_length (wp + 1) (np + 1) (startBeam s (dp + 1))
    cases hBc : runSweeps (wp + 1) (np + 1) (startBeam s (dp + 1)) with
    | nil =>
      rw [hBc] at hlen
      simp [startBeam] at hlen
    | cons f0 ftail => exact ⟨f0, ftail, rfl⟩
  have htag2 : ∀ q ∈ ftail, ∀ x ∈ q,
      ∃ a, a ∈ s.legal_actions ∧ x.first_action = some a := by
    intro q hq x hx
    obtain ⟨j, hj⟩ := List.mem_iff_get?.mp hq
    have hget : (runSweeps (wp + 1) (np + 1) (startBeam s (dp + 1))).get? (j + 1) =
        some q := by
      rw [hf]
      exact hj
    exact (hinv (j + 1) q hget x hx).2 (by omega)
  have hne2 : ∃ q ∈ ftail, q ≠ [] := by
    rw [hf] at htail
    exact htail
  obtain ⟨a, haA, hscan⟩ := scanDeepest_ok_of_tagged ftail s.legal_actions htag2 hne2
  refine ⟨a, haA, ?_⟩
  show scanDeepest (runSweeps (wp + 1) (np + 1) (startBeam s (dp + 1))) = .ok a
  rw [hf]
  simp only [scanDeepest, hscan]

/-! ### Degenerate configurations -/

theorem runSweeps_single (w n : Nat) (q : List MazeState) :
    runSweeps w n [q] = [q] := by
  induction n with
  | zero => rfl
  | succ m ih => exact ih

theorem sweepAux_width_zero :
    ∀ (rest : List (List MazeState)) (t : Nat) (q : List MazeState),
      sweepAux 0 t q rest = q :: rest := by
  intro rest
  induction rest with
  | nil => intro t q; rfl
  | cons qn rest ih =>
    intro t q
    simp only [sweepAux, expandLevel]
    rw [ih]

theorem sweep_width_zero (b : List (List MazeState)) : sweep 0 b = b := by
  cases b with
  | nil => rfl
  | cons q rest => exact sweepAux_width_zero rest 0 q

theorem runSweeps_width_zero (n : Nat) (b : List (List MazeState)) :
    runSweeps 0 n b = b := by
  induction n with
  | zero => rfl
  | succ m ih => rw [runSweeps, sweep_width_zero]; exact ih

theorem scanDeepest_replicate (m : Nat) :
    scanDeepest (List.replicate m ([] : List MazeState)) = .sentinel :=
  (scanDeepest_sentinel_iff _).mpr fun _ hq => List.eq_of_mem_replicate hq

theorem scanDeepest_root_only {s : MazeState} (htag : s.first_action = none)
    (d : Nat) : scanDeepest ([s] :: List.replicate d []) = .panicked := by
  have hrep : scanDeepest (List.replicate d ([] : List MazeState)) = .sentinel :=
    scanDeepest_replicate d
  have hpk : peekMax [s] = some s := rfl
  simp only [scanDeepest, hrep, hpk, htag]

theorem sweepAux_all_empty (w : Nat) :
    ∀ (k t : Nat), sweepAux w t [] (List.replicate k []) =
      List.replicate (k + 1) [] := by
  intro k
  induction k with
  | zero => intro t; rfl
  | succ kp ih =>
    intro t
    rw [List.replicate_succ]
    simp only [sweepAux, expandLevel_nil]
    rw [ih (t + 1), ← List.replicate_succ]

theorem sweep_all_empty (w k : Nat) :
    sweep w (List.replicate (k + 1) []) = List.replicate (k + 1) [] := by
  conv_lhs => rw [List.replicate_succ]
  show sweepAux w 0 [] (List.replicate k []) = _
  exact sweepAux_all_empty w k 0

theorem runSweeps_all_empty (w n k : Nat) :
    runSweeps w n (List.replicate (k + 1) []) = List.replicate (k + 1) [] := by
  induction n with
  | zero => rfl
  | succ m ih => rw [runSweeps, sweep_all_empty]; exact ih

theorem first_sweep_stuck (wp dp : Nat) {s : MazeState}
    (hdone : s.is_done = false) (hleg : s.legal_actions = []) :
    sweep (wp + 1) (startBeam s (dp + 1)) = List.replicate (dp + 2) [] := by
  have hpop : popMax [s] = some (s, []) := rfl
  have hnd : ¬s.is_done = true := by simp [hdone]
  have hch : expandChildren 0 s = [] := by
    unfold expandChildren
    rw [hleg]
    rfl
  have hE : expandLevel (wp + 1) 0 [s] [] = ([], []) := by
    simp only [expandLevel, hpop, if_neg hnd, hch]
    exact expandLevel_nil wp 0 _
  show sweepAux (wp + 1) 0 [s] ([] :: List.replicate dp []) = _
  simp only [sweepAux, hE]
  rw [sweepAux_all_empty (wp + 1) dp 1]
  rfl

/-- Claim C2 (amended): the source has no `ConfigurationError`.  With
`depthLimit = 0` or `beamWidth = 0` the driver panics unwrapping the
root's absent first-action tag; with a stuck root (non-terminal, no
legal action) and positive width/depth every queue drains, the final
scan falls through all queues, and the driver returns the sentinel
`Action::MAX` after a debug-only assertion. -/
theorem claim2_no_config_error :
    (∀ (s : MazeState) (w d n : Nat), s.first_action = none →
      d = 0 ∨ w = 0 →
      chokudai_search_action_with_time_threshold s w d n = .panicked) ∧
    (∀ (s : MazeState) (w d n : Nat), s.is_done = false →
      s.legal_actions = [] → 1 ≤ w → 1 ≤ d → 1 ≤ n →
      chokudai_search_action_with_time_threshold s w d n = .sentinel) := by
  constructor
  · intro s w d n htag hdeg
    rcases hdeg with rfl | rfl
    · show scanDeepest (runSweeps w n (startBeam s 0)) = .panicked
      have : runSweeps w n (startBeam s 0) = [[s]] := runSweeps_single w n [s]
      rw [this]
      exact scanDeepest_root_only htag 0
    · show scanDeepest (runSweeps 0 n (startBeam s d)) = .panicked
      rw [runSweeps_width_zero]
      exact scanDeepest_root_only htag d
  · intro s w d n hdone hleg hw hd hn
    obtain ⟨wp, rfl⟩ : ∃ wp, w = wp + 1 := ⟨w - 1, by omega⟩
    obtain ⟨dp, rfl⟩ : ∃ dp, d = dp + 1 := ⟨d - 1, by omega⟩
    obtain ⟨np, rfl⟩ : ∃ np, n = np + 1 := ⟨n - 1, by omega⟩
    show scanDeepest (runSweeps (wp + 1) (np + 1) (startBeam s (dp + 1))) = _
    have h1 : runSweeps (wp + 1) (np + 1) (startBeam s (dp + 1)) =
        runSweeps (wp + 1) np (sweep (wp + 1) (startBeam s (dp + 1))) := rfl
    rw [h1, first_sweep_stuck wp dp hdone hleg]
    have h2 : dp + 2 = (dp + 1) + 1 := rfl
    rw [h2, runSweeps_all_empty]
    exact scanDeepest_replicate _

theorem claim1_witness :
    s0.is_done = false ∧ s0.legal_actions ≠ [] ∧
      ∃ a, a ∈ s0.legal_actions ∧
        chokudai_search_action_with_time_threshold s0 1 1 1 = .ok a :=
  ⟨by decide, by decide,
    claim1_search_returns_legal_action s0 1 1 1 (by decide) (by decide)
      (le_refl 1) (le_refl 1) (le_refl 1)⟩

/-- Claim C2, counterexample: at a stuck root (non-terminal, empty
legal-action set) with `beamWidth = 1`, `depthLimit = 1`, the driver
does not surface an error value: it runs off the end of the scan and
returns the sentinel `Action::MAX` (modelled by `SearchResult.sentinel`),
contradicting both the `ConfigurationError` requirement and the
"never returns a sentinel" requirement. -/
theorem claim2_counterexample :
    stuckS.is_done = false ∧ stuckS.legal_actions = [] ∧
      chokudai_search_action_with_time_threshold stuckS 1 1 1 = .sentinel :=
  ⟨by decide, by decide, by decide⟩

theorem claim2_witness :
    s0.first_action = none ∧
      chokudai_search_action_with_time_threshold s0 1 0 1 = .panicked :=
  ⟨rfl, claim2_no_config_error.1 s0 1 0 1 rfl (Or.inl rfl)⟩

/-- Claim C8: every node of frontier queue `t` (after any number of
sweeps, any width, any depth) carries a turn counter equal to the root's
turn counter plus `t`; in particular the seeded root in queue 0 does. -/
theorem claim8_turn_invariant (s : MazeState) (w d n t : Nat)
    (q : List MazeState) (x : MazeState)
    (hq : (runSweeps w n (startBeam s d)).get? t = some q) (hx : x ∈ q) :
    x.turn = s.turn + (t : Int) := by
  have hstep : StepOK (fun t x => x.turn = s.turn + (t : Int)) := by
    intro u p a hP _ _
    rw [mkChild_turn, hP]
    push_cast
    ring
  have h0 : s.turn = s.turn + ((0 : Nat) : Int) := by simp
  exact runSweeps_inv hstep w n _ (startBeam_inv s d h0) t q hq x hx

theorem claim8_witness :
    (runSweeps 1 1 (startBeam s0 1)).get? 1 =
        some ([] ++ expandChildren 0 s0) ∧
      mkChild 0 s0 0 ∈ [] ++ expandChildren 0 s0 ∧
      (mkChild 0 s0 0).turn = s0.turn + ((1 : Nat) : Int) := by
  have hmem : mkChild 0 s0 0 ∈ [] ++ expandChildren 0 s0 :=
    List.mem_append.mpr (Or.inr (List.mem_map.mpr ⟨0, by decide, rfl⟩))
  exact ⟨rfl, hmem, claim8_turn_invariant s0 1 1 1 1 _ _ rfl hmem⟩

/-- Claim C3: children produced at depth 0 are stamped with the
expanding action as first-action tag; children produced at depth
`t > 0` inherit the parent's tag unchanged; consequently every node of
a queue `t >= 1` carries the tag of the depth-0 child through which the
engine reached it (witnessed by an expansion trace `ReachedVia`). -/
theorem claim3_first_action_tag (root : MazeState) :
    (∀ p a, (mkChild 0 p a).first_action = some a) ∧
    (∀ (t : Nat) p a, t ≠ 0 → (mkChild t p a).first_action = p.first_action) ∧
    (∀ (w d n t : Nat) (q : List MazeState) (x : MazeState),
      (runSweeps w n (startBeam root d)).get? t = some q → x ∈ q → 1 ≤ t →
      ∃ a, ReachedVia root t a x ∧ x.first_action = some a ∧
        x.first_action = (mkChild 0 root a).first_action) := by
  refine ⟨fun p a => mkChild_tag_zero p a,
    fun t p a ht => mkChild_tag_pos ht p a, ?_⟩
  intro w d n t q x hq hx ht
  have hstep : StepOK (fun t x => (t = 0 → x = root) ∧
      (1 ≤ t → ∃ a, ReachedVia root t a x ∧ x.first_action = some a)) := by
    intro u p b hP hdone hb
    constructor
    · intro h
      exact absurd h (Nat.succ_ne_zero u)
    · intro _
      cases u with
      | zero =>
        have hp : p = root := hP.1 rfl
        subst hp
        exact ⟨b, ReachedVia.base b hdone hb, mkChild_tag_zero p b⟩
      | succ tp =>
        obtain ⟨a, hreach, htag⟩ := hP.2 (by omega)
        refine ⟨a, ReachedVia.step (tp + 1) a b p hreach hdone hb, ?_⟩
        rw [mkChild_tag_pos (Nat.succ_ne_zero tp) p b]
        exact htag
  have hP := runSweeps_inv hstep w n _
    (startBeam_inv root d ⟨fun _ => rfl, fun h => absurd h (by omega)⟩)
    t q hq x hx
  obtain ⟨a, hreach, htag⟩ := hP.2 ht
  refine ⟨a, hreach, htag, ?_⟩
  rw [htag, mkChild_tag_zero]

theorem claim3_witness :
    (runSweeps 1 1 (startBeam s0 1)).get? 1 =
        some ([] ++ expandChildren 0 s0) ∧
      mkChild 0 s0 0 ∈ [] ++ expandChildren 0 s0 ∧ 1 ≤ 1 ∧
      ∃ a, ReachedVia s0 1 a (mkChild 0 s0 0) ∧
        (mkChild 0 s0 0).first_action = some a ∧
        (mkChild 0 s0 0).first_action = (mkChild 0 s0 a).first_action := by
  have hmem : mkChild 0 s0 0 ∈ [] ++ expandChildren 0 s0 :=
    List.mem_append.mpr (Or.inr (List.mem_map.mpr ⟨0, by decide, rfl⟩))
  exact ⟨rfl, hmem, le_refl 1,
    (claim3_first_action_tag s0).2.2 1 1 1 1 _ _ rfl hmem (le_refl 1)⟩

/-- Claim C4: after the sweeps, the scan runs from index `depthLimit`
down to 0; if `t` is the deepest index holding a non-empty queue, the
returned action is the first-action tag of that queue's best-scoring
node (its peek, which is maximal for `evaluated_score`). -/
theorem claim4_deepest_scan (s : MazeState) (w d n t : Nat)
    (q : List MazeState) (m : MazeState) (a : Action)
    (hget : (runSweeps w n (startBeam s d)).get? t = some q)
    (hpeek : peekMax q = some m)
    (hdeep : ∀ u qu, t < u →
      (runSweeps w n (startBeam s d)).get? u = some qu → qu = [])
    (htag : m.first_action = some a) :
    (∀ x ∈ q, x.evaluated_score ≤ m.evaluated_score) ∧
      chokudai_search_action_with_time_threshold s w d n = .ok a := by
  constructor
  · have hpk := hpeek
    unfold peekMax at hpk
    cases hp : popMax q with
    | none =>
      rw [hp] at hpk
      simp at hpk
    | some pr =>
      obtain ⟨m1, r1⟩ := pr
      rw [hp] at hpk
      simp at hpk
      rw [← hpk]
      exact popMax_is_max hp
  · have hs := scanDeepest_deepest _ t q m hget hpeek hdeep
    show scanDeepest (runSweeps w n (startBeam s d)) = .ok a
    rw [htag] at hs
    exact hs

theorem claim4_witness :
    ((runSweeps 1 1 (startBeam s0 1)).get? 1 =
        some ([] ++ expandChildren 0 s0)) ∧
      peekMax ([] ++ expandChildren 0 s0) = some (mkChild 0 s0 0) ∧
      (mkChild 0 s0 0).first_action = some 0 ∧
      (∀ x ∈ ([] ++ expandChildren 0 s0),
        x.evaluated_score ≤ (mkChild 0 s0 0).evaluated_score) ∧
      chokudai_search_action_with_time_threshold s0 1 1 1 = .ok 0 := by
  have hdeep : ∀ u qu, 1 < u →
      (runSweeps 1 1 (startBeam s0 1)).get? u = some qu → qu = [] := by
    intro u qu hu hq
    cases u with
    | zero => omega
    | succ u1 =>
      cases u1 with
      | zero => omega
      | succ k =>
        have hb : runSweeps 1 1 (startBeam s0 1) =
            [[], [] ++ expandChildren 0 s0] := rfl
        rw [hb, List.get?_cons_succ, List.get?_cons_succ] at hq
        exact Option.noConfusion hq
  have h := claim4_deepest_scan s0 1 1 1 1 ([] ++ expandChildren 0 s0)
    (mkChild 0 s0 0) 0 rfl rfl hdeep rfl
  exact ⟨rfl, rfl, rfl, h.1, h.2⟩

/-- Claim C5: each level performs at most `beamWidth` expansion steps
per sweep (the queue shrinks by at most `w` nodes), stopping immediately
on an empty queue or a terminal best node; and when the root is at most
`END_TURN` turns old, queues at indices past the terminal turn stay
empty forever, so an over-long `depthLimit` is harmless. -/
theorem claim5_bounded_expansion :
    (∀ (w t : Nat) (qn : List MazeState), expandLevel w t [] qn = ([], qn)) ∧
    (∀ (w t : Nat) (q qn : List MazeState) (m : MazeState)
      (r : List MazeState), popMax q = some (m, r) → m.is_done = true →
      expandLevel w t q qn = (q, qn)) ∧
    (∀ (w t : Nat) (q qn : List MazeState),
      q.length ≤ (expandLevel w t q qn).1.length + w) ∧
    (∀ (s : MazeState) (w d n : Nat), s.turn ≤ END_TURN →
      ∀ (t : Nat) (q : List MazeState), END_TURN < s.turn + (t : Int) →
        (runSweeps w n (startBeam s d)).get? t = some q → q = []) := by
  refine ⟨expandLevel_nil,
    fun w t q qn m r h hd => expandLevel_done w t h hd,
    expandLevel_length, ?_⟩
  intro s w d n hturn t q ht hq
  have hstep : StepOK (fun u x =>
      x.turn = s.turn + (u : Int) ∧ x.turn ≤ END_TURN) := by
    intro u p a hP hdone _
    have h1 : (mkChild u p a).turn = p.turn + 1 := mkChild_turn u p a
    have hne : p.turn ≠ END_TURN := by
      simp [MazeState.is_done] at hdone
      exact hdone
    have hE : END_TURN = (100 : Int) := rfl
    constructor
    · rw [h1, hP.1]
      push_cast
      ring
    · rw [h1]
      have h2 := hP.2
      omega
  have hP0 : s.turn = s.turn + ((0 : Nat) : Int) ∧ s.turn ≤ END_TURN :=
    ⟨by simp, hturn⟩
  have hinv := runSweeps_inv hstep w n _ (startBeam_inv s d hP0) t q hq
  rw [List.eq_nil_iff_forall_not_mem]
  intro x hx
  have h2 := hinv x hx
  have hE : END_TURN = (100 : Int) := rfl
  omega

theorem claim5_witness :
    s1.turn ≤ END_TURN ∧ END_TURN < s1.turn + ((2 : Nat) : Int) ∧
      (runSweeps 1 1 (startBeam s1 2)).get? 2 = some [] ∧
      ([] : List MazeState) = [] := by
  refine ⟨by decide, by decide, rfl, ?_⟩
  exact claim5_bounded_expansion.2.2.2 s1 1 2 1 (by decide) 2 [] (by decide) rfl

/-! ### Pointwise behaviour of `advance` -/

theorem advance_game_score (s : MazeState) (a : Action) :
    (s.advance a).game_score = s.game_score +
      (if 0 < s.points (destY s a) (destX s a)
       then s.points (destY s a) (destX s a) else 0) := by
  unfold MazeState.advance
  dsimp only
  by_cases h : 0 < s.points (destY s a) (destX s a)
  · rw [if_pos h, if_pos h]
  · rw [if_neg h, if_neg h]
    simp

theorem advance_points_collect {s : MazeState} {a : Action}
    (h : 0 < s.points (destY s a) (destX s a)) :
    (s.advance a).points =
      fun y x => if y = destY s a ∧ x = destX s a then 0
                 else s.points y x := by
  unfold MazeState.advance
  dsimp only
  rw [if_pos h]

theorem advance_points_skip {s : MazeState} {a : Action}
    (h : ¬0 < s.points (destY s a) (destX s a)) :
    (s.advance a).points = s.points := by
  unfold MazeState.advance
  dsimp only
  rw [if_neg h]

theorem advance_points_frame (s : MazeState) (a : Action) (y x : Nat)
    (h : ¬(y = destY s a ∧ x = destX s a)) :
    (s.advance a).points y x = s.points y x := by
  by_cases h0 : 0 < s.points (destY s a) (destX s a)
  · rw [advance_points_collect h0]
    dsimp only
    rw [if_neg h]
  · rw [advance_points_skip h0]

theorem advance_points_zero (s : MazeState) (a : Action) (y x : Nat)
    (h : s.points y x = 0) : (s.advance a).points y x = 0 := by
  by_cases h0 : 0 < s.points (destY s a) (destX s a)
  · rw [advance_points_collect h0]
    dsimp only
    by_cases hyx : y = destY s a ∧ x = destX s a
    · rw [if_pos hyx]
    · rw [if_neg hyx]
      exact h
  · rw [advance_points_skip h0]
    exact h

theorem advanceSeq_points_zero (as : List Action) :
    ∀ (s : MazeState) (y x : Nat), s.points y x = 0 →
      (advanceSeq s as).points y x = 0 := by
  induction as with
  | nil => intro s y x h; exact h
  | cons a as ih =>
    intro s y x h
    exact ih (s.advance a) y x (advance_points_zero s a y x h)

theorem advance_score_no_collect (s : MazeState) (b : Action)
    (h : s.points (destY s b) (destX s b) ≤ 0) :
    (s.advance b).game_score = s.game_score := by
  rw [advance_game_score, if_neg (not_lt.mpr h)]
  simp

/-- Claim C6: `advance` moves the agent by the action's delta, collects a
positive destination cell into the score and zeroes it (otherwise leaves
the score alone), increments the turn counter by one; and a cell is
collected at most once along any action sequence: once zero it stays
zero forever, and entering a cell holding no positive value adds
nothing. -/
theorem claim6_advance_behaviour (s : MazeState) (a : Action)
    (ha : a ∈ s.legal_actions)
    (hx : s.character.x < W) (hy : s.character.y < H) :
    (((s.advance a).character.x : Int) = (s.character.x : Int) + dxA a ∧
     ((s.advance a).character.y : Int) = (s.character.y : Int) + dyA a) ∧
    (0 < s.points (destY s a) (destX s a) →
      (s.advance a).game_score =
        s.game_score + s.points (destY s a) (destX s a) ∧
      (s.advance a).points (destY s a) (destX s a) = 0) ∧
    (¬0 < s.points (destY s a) (destX s a) →
      (s.advance a).game_score = s.game_score) ∧
    (s.advance a).turn = s.turn + 1 ∧
    (∀ (p : MazeState) (y x : Nat) (as : List Action), p.points y x = 0 →
      (advanceSeq p as).points y x = 0) ∧
    (∀ (p : MazeState) (b : Action),
      p.points (destY p b) (destX p b) ≤ 0 →
      (p.advance b).game_score = p.game_score) := by
  obtain ⟨hdx, hdy, -, -⟩ := dest_int_of_legal ha
  have hix : toI32 s.character.x = s.character.x := toI32_small (by
    have : W = 30 := rfl
    omega)
  have hiy : toI32 s.character.y = s.character.y := toI32_small (by
    have : H = 30 := rfl
    omega)
  refine ⟨⟨?_, ?_⟩, ?_, ?_, advance_turn s a,
    fun p y x as h => advanceSeq_points_zero as p y x h, ?_⟩
  · rw [advance_character]
    show ((destX s a : Nat) : Int) = _
    rw [hdx, hix]
  · rw [advance_character]
    show ((destY s a : Nat) : Int) = _
    rw [hdy, hiy]
  · intro h0
    constructor
    · rw [advance_game_score, if_pos h0]
    · rw [advance_points_collect h0]
      dsimp only
      rw [if_pos ⟨rfl, rfl⟩]
  · intro h0
    rw [advance_game_score, if_neg h0]
    simp
  · intro p b h
    exact advance_score_no_collect p b h

theorem claim6_witness :
    (0 ∈ s0.legal_actions) ∧ s0.character.x < W ∧ s0.character.y < H ∧
      (((s0.advance 0).character.x : Int) = (s0.character.x : Int) + dxA 0 ∧
       ((s0.advance 0).character.y : Int) = (s0.character.y : Int) + dyA 0) ∧
      (s0.advance 0).turn = s0.turn + 1 := by
  have h := claim6_advance_behaviour s0 0 (by decide) (by decide) (by decide)
  exact ⟨by decide, by decide, by decide, h.1, h.2.2.2.1⟩

/-- Claim C7: the engine's expansion is pure: every child is a function
of the original parent and its own action alone.  Each child's grid
differs from the parent's only at that child's own destination cell, its
score is computed from the parent's untouched grid, and two children of
the same parent agree everywhere outside their two destination cells —
producing one child cannot interfere with the other or with the parent. -/
theorem claim7_children_independent (p : MazeState) (t : Nat)
    (a1 a2 : Action) :
    expandChildren t p = p.legal_actions.map (fun a => mkChild t p a) ∧
    (mkChild t p a1).character = ⟨destX p a1, destY p a1⟩ ∧
    (mkChild t p a1).game_score = p.game_score +
      (if 0 < p.points (destY p a1) (destX p a1)
       then p.points (destY p a1) (destX p a1) else 0) ∧
    (mkChild t p a2).game_score = p.game_score +
      (if 0 < p.points (destY p a2) (destX p a2)
       then p.points (destY p a2) (destX p a2) else 0) ∧
    (∀ y x, ¬(y = destY p a1 ∧ x = destX p a1) →
      (mkChild t p a1).points y x = p.points y x) ∧
    (∀ y x, ¬(y = destY p a1 ∧ x = destX p a1) →
      ¬(y = destY p a2 ∧ x = destX p a2) →
      (mkChild t p a1).points y x = (mkChild t p a2).points y x) := by
  refine ⟨rfl, mkChild_character t p a1, ?_, ?_, ?_, ?_⟩
  · rw [mkChild_game_score, advance_game_score]
  · rw [mkChild_game_score, advance_game_score]
  · intro y x h
    rw [mkChild_points]
    exact advance_points_frame p a1 y x h
  · intro y x h1 h2
    rw [mkChild_points, mkChild_points]
    rw [advance_points_frame p a1 y x h1, advance_points_frame p a2 y x h2]

/-! ### Bounds safety of `advance` -/

theorem dxArr_get? {a : Nat} (h : a < 4) : dxArr.get? a = some (dxA a) := by
  interval_cases a <;> rfl

theorem dyArr_get? {a : Nat} (h : a < 4) : dyArr.get? a = some (dyA a) := by
  interval_cases a <;> rfl

theorem advanceChecked_of_legal {s : MazeState} {a : Action}
    (ha : a ∈ s.legal_actions) : advanceChecked s a = some (s.advance a) := by
  obtain ⟨ha4, hy0, hy1, hx0, hx1⟩ := mem_legal_iff.mp ha
  unfold advanceChecked
  simp only [dxArr_get? ha4, dyArr_get? ha4]
  have hHi : (H : Int) = 30 := rfl
  have hWi : (W : Int) = 30 := rfl
  have hyb : toUsize (toI32 s.character.y + dyA a) < H := by
    rw [toUsize_small hy0 (by omega)]
    omega
  have hxb : toUsize (toI32 s.character.x + dxA a) < W := by
    rw [toUsize_small hx0 (by omega)]
    omega
  rw [if_pos ⟨hyb, hxb⟩]

theorem mapOpt_eq_some {α β : Type} {f : α → Option β} {g : α → β} :
    ∀ l : List α, (∀ a ∈ l, f a = some (g a)) → mapOpt f l = some (l.map g) := by
  intro l
  induction l with
  | nil => intro _; rfl
  | cons a l ih =>
    intro h
    simp only [mapOpt]
    rw [h a (List.mem_cons_self a l), ih (fun b hb => h b (List.mem_cons_of_mem a hb))]
    rfl

theorem expandChildrenChecked_eq (t : Nat) (p : MazeState) :
    expandChildrenChecked t p = some (expandChildren t p) := by
  unfold expandChildrenChecked expandChildren
  apply mapOpt_eq_some
  intro a ha
  unfold mkChildChecked
  rw [advanceChecked_of_legal ha]
  rfl

/-- Claim C9: for a legal action from an in-bounds coordinate, the signed
destination arithmetic stays inside the grid, the cast back to `usize`
does not wrap (it is plain `Int.toNat`), so both grid indexings of
`advance` are in bounds; and since the engine expands only via
`legal_actions`, every `advance` call it makes succeeds in the checked
semantics — the out-of-bounds panic is unreachable during the search. -/
theorem claim9_no_out_of_bounds (s : MazeState) (a : Action)
    (ha : a ∈ s.legal_actions)
    (_hx : s.character.x < W) (_hy : s.character.y < H) :
    (0 ≤ toI32 s.character.x + dxA a ∧
      toI32 s.character.x + dxA a < (W : Int) ∧
      0 ≤ toI32 s.character.y + dyA a ∧
      toI32 s.character.y + dyA a < (H : Int)) ∧
    destX s a = (toI32 s.character.x + dxA a).toNat ∧
    destY s a = (toI32 s.character.y + dyA a).toNat ∧
    destX s a < W ∧ destY s a < H ∧
    advanceChecked s a = some (s.advance a) ∧
    (∀ (t : Nat) (p : MazeState),
      expandChildrenChecked t p = some (expandChildren t p)) := by
  obtain ⟨-, hy0, hy1, hx0, hx1⟩ := mem_legal_iff.mp ha
  obtain ⟨-, -, hxW, hyH⟩ := dest_int_of_legal ha
  refine ⟨⟨hx0, hx1, hy0, hy1⟩, ?_, ?_, hxW, hyH,
    advanceChecked_of_legal ha, expandChildrenChecked_eq⟩
  · unfold destX
    exact toUsize_small hx0 (by
      have : (W : Int) = 30 := rfl
      omega)
  · unfold destY
    exact toUsize_small hy0 (by
      have : (H : Int) = 30 := rfl
      omega)

theorem claim9_witness :
    (0 ∈ s0.legal_actions) ∧ s0.character.x < W ∧ s0.character.y < H ∧
      destX s0 0 < W ∧ destY s0 0 < H ∧
      advanceChecked s0 0 = some (s0.advance 0) := by
  have h := claim9_no_out_of_bounds s0 0 (by decide) (by decide) (by decide)
  exact ⟨by decide, by decide, by decide, h.2.2.2.1, h.2.2.2.2.1, h.2.2.2.2.2.1⟩

/-! ### Score conservation -/

theorem sum_if_zero (f : Nat → Nat → Int) (ny nx : Nat)
    (hy : ny < H) (hx : nx < W) :
    (∑ y ∈ Finset.range H, ∑ x ∈ Finset.range W,
      (if y = ny ∧ x = nx then 0 else f y x)) =
    (∑ y ∈ Finset.range H, ∑ x ∈ Finset.range W, f y x) - f ny nx := by
  have hym : ny ∈ Finset.range H := Finset.mem_range.mpr hy
  have hxm : nx ∈ Finset.range W := Finset.mem_range.mpr hx
  rw [← Finset.sum_erase_add _ _ hym, ← Finset.sum_erase_add _ _ hym]
  have h1 : ∀ y ∈ (Finset.range H).erase ny,
      (∑ x ∈ Finset.range W, if y = ny ∧ x = nx then 0 else f y x) =
      ∑ x ∈ Finset.range W, f y x := by
    intro y hyer
    have hyne : y ≠ ny := (Finset.mem_erase.mp hyer).1
    refine Finset.sum_congr rfl fun x _ => ?_
    rw [if_neg]
    intro hcon
    exact hyne hcon.1
  rw [Finset.sum_congr rfl h1]
  have h2 : (∑ x ∈ Finset.range W, if ny = ny ∧ x = nx then 0 else f ny x) =
      (∑ x ∈ Finset.range W, f ny x) - f ny nx := by
    rw [← Finset.sum_erase_add _ _ hxm, ← Finset.sum_erase_add _ _ hxm]
    have h3 : ∀ x ∈ (Finset.range W).erase nx,
        (if ny = ny ∧ x = nx then 0 else f ny x) = f ny x := by
      intro x hxe
      rw [if_neg]
      intro hcon
      exact (Finset.mem_erase.mp hxe).1 hcon.2
    rw [Finset.sum_congr rfl h3, if_pos ⟨rfl, rfl⟩]
    ring
  rw [h2]
  ring

/-- Claim C10: for a state with a non-negative grid and a legal action,
`advance` preserves `game_score + gridSum` (a collected value moves from
the grid into the score), keeps every grid cell non-negative, and never
decreases `game_score`. -/
theorem claim10_score_conservation (s : MazeState) (a : Action)
    (ha : a ∈ s.legal_actions)
    (hnn : ∀ y x, y < H → x < W → 0 ≤ s.points y x) :
    (s.advance a).game_score + gridSum (s.advance a) =
        s.game_score + gridSum s ∧
    (∀ y x, y < H → x < W → 0 ≤ (s.advance a).points y x) ∧
    s.game_score ≤ (s.advance a).game_score := by
  obtain ⟨-, -, hxW, hyH⟩ := dest_int_of_legal ha
  by_cases h0 : 0 < s.points (destY s a) (destX s a)
  · have hsc : (s.advance a).game_score =
        s.game_score + s.points (destY s a) (destX s a) := by
      rw [advance_game_score, if_pos h0]
    have hpts := advance_points_collect h0
    refine ⟨?_, ?_, ?_⟩
    · rw [hsc]
      have hgs : gridSum (s.advance a) =
          gridSum s - s.points (destY s a) (destX s a) := by
        unfold gridSum
        rw [hpts]
        exact sum_if_zero s.points (destY s a) (destX s a) hyH hxW
      rw [hgs]
      ring
    · intro y x hyh hxw
      rw [hpts]
      dsimp only
      by_cases hyx : y = destY s a ∧ x = destX s a
      · rw [if_pos hyx]
      · rw [if_neg hyx]
        exact hnn y x hyh hxw
    · rw [hsc]
      omega
  · have hsc : (s.advance a).game_score = s.game_score := by
      rw [advance_game_score, if_neg h0]
      simp
    have hpts := advance_points_skip h0
    refine ⟨?_, ?_, ?_⟩
    · have hgs : gridSum (s.advance a) = gridSum s := by
        unfold gridSum
        rw [hpts]
      rw [hsc, hgs]
    · intro y x hyh hxw
      rw [hpts]
      exact hnn y x hyh hxw
    · rw [hsc]

theorem claim10_witness :
    (0 ∈ s0.legal_actions) ∧
      (∀ y x, y < H → x < W → 0 ≤ s0.points y x) ∧
      (s0.advance 0).game_score + gridSum (s0.advance 0) =
        s0.game_score + gridSum s0 ∧
      s0.game_score ≤ (s0.advance 0).game_score := by
  have hnn : ∀ y x, y < H → x < W → 0 ≤ s0.points y x :=
    fun y x _ _ => le_refl 0
  have h := claim10_score_conservation s0 0 (by decide) hnn
  exact ⟨by decide, hnn, h.1, h.2.2⟩

end Chokudai
